import Mathlib

/-!
Shallow embedding of the mini-os cooperative threading runtime
(src/src/threadlib.cpp, src/include/threadlib.hpp) and proofs about its
scheduler, quantum accounting, MLFQ aging/demotion, wait/signal registry
and thread-local storage.

C++ machine integers are modelled as Int; the programs manipulate only
small values and none of the verified statements depends on wraparound.
The platform context switch (swapcontext / fibers) is modelled as a
suspension marker: functions that call platform_yield_to_scheduler
return the state reached just before the switch together with a flag
recording that the switch is invoked.
-/

namespace MiniOS

/-- enum class SchedPolicy from threadlib.hpp. -/
inductive SchedPolicy where
  | RoundRobin
  | Priority
  | MLFQ
deriving DecidableEq

/-- enum class ThreadState from threadlib.cpp. -/
inductive ThreadState where
  | NEW
  | READY
  | RUNNING
  | BLOCKED
  | SLEEPING
  | FINISHED
deriving DecidableEq

/-- struct Thread (fields relevant to the data model; the std::function
entry and the machine context are opaque and not modelled). -/
structure Thread where
  tid : Int := -1
  base_priority : Int := 1
  dyn_priority : Int := 1
  state : ThreadState := ThreadState.NEW
  name : String := ""
  wake_time_ms : Int := 0
  quantum_budget : Int := 8
  mlfq_level : Int := 0
deriving DecidableEq

/-- One record of the CSV event log (timestamp omitted: the log sink is
an opaque emitter; the claims are about which events are appended). -/
structure LogEntry where
  event : String
  tid : Int
  info : String := ""
deriving DecidableEq

/-- struct Scheduler from threadlib.cpp. -/
structure Scheduler where
  policy : SchedPolicy := SchedPolicy.RoundRobin
  rrq : List Int := []
  mlfq : List (List Int) := []
  levels : Int := 3
  quantum_by_level : List Int := [8, 4, 2]
  enable_aging : Bool := true
  aging_interval_ms : Int := 500
  last_age_ms : Int := 0
deriving DecidableEq

/-- Global runtime state: g_sched, g_threads, g_current, g_resources,
g_tls and the event log. -/
structure State where
  sched : Scheduler := {}
  threads : List Thread := []
  current : Int := -1
  resources : List (String × List Int) := []
  tls : List (Int × List (String × Int)) := []
  log : List LogEntry := []
deriving DecidableEq

/-! ### Small helpers shared by the embedded operations -/

def defaultThread : Thread := {}

/-- g_threads[tid] (vector indexing by tid; tids are dense from 0). -/
def getTh (ths : List Thread) (tid : Int) : Thread :=
  ths.getD tid.toNat defaultThread

/-- store back g_threads[tid]. -/
def setTh (ths : List Thread) (tid : Int) (th : Thread) : List Thread :=
  ths.set tid.toNat th

/-- std::clamp for Int (precondition lo ≤ hi, as in the C++ contract). -/
def iclamp (x lo hi : Int) : Int := min (max x lo) hi

/-- Association-list lookup, modelling map/unordered_map find. -/
def lookupA {α β : Type} [DecidableEq α] : List (α × β) → α → Option β
  | [], _ => none
  | (k, v) :: rest, a => if k = a then some v else lookupA rest a

/-- Association-list insert-or-update, modelling operator[] assignment. -/
def insertA {α β : Type} [DecidableEq α] : List (α × β) → α → β → List (α × β)
  | [], a, b => [(a, b)]
  | (k, v) :: rest, a, b =>
      if k = a then (k, b) :: rest else (k, v) :: insertA rest a b

/-! ### Scheduler operations (Scheduler methods in threadlib.cpp) -/

/-- Scheduler::set_policy_from_env. The guard at the top of the C++
function resets an invalid enumerator to RoundRobin; in this embedding
policy is an inductive and is always one of the three enumerators, so
that guard is the identity. env models getenv of SCHED. -/
def Scheduler.set_policy_from_env (sc : Scheduler) (env : Option String) :
    Scheduler :=
  match env with
  | none => sc
  | some v =>
      if v = "prio" ∨ v = "priority" then
        { sc with policy := SchedPolicy.Priority }
      else if v = "mlfq" then
        { sc with policy := SchedPolicy.MLFQ }
      else
        { sc with policy := SchedPolicy.RoundRobin }

/-- Scheduler::init_mlfq_if_needed (8 >> i on nonnegative int equals
division by 2^i). -/
def Scheduler.init_mlfq_if_needed (sc : Scheduler) : Scheduler :=
  let sc1 :=
    if sc.mlfq.length ≠ sc.levels.toNat then
      { sc with mlfq := List.replicate sc.levels.toNat [] }
    else sc
  if sc1.quantum_by_level.length ≠ sc1.levels.toNat then
    let defaults :=
      (List.range sc1.levels.toNat).map
        (fun i => max 1 ((8 : Int) / (2 : Int) ^ i))
    { sc1 with quantum_by_level := defaults }
  else sc1

/-- Scheduler::enqueue_rr. -/
def Scheduler.enqueue_rr (sc : Scheduler) (tid : Int) : Scheduler :=
  { sc with rrq := sc.rrq ++ [tid] }

/-- The linear scan of Scheduler::enqueue_prio: walk from the head and
insert before the first element whose base_priority is strictly below
the incoming base_priority, else append. -/
def prioInsert (ths : List Thread) (tid : Int) : List Int → List Int
  | [] => [tid]
  | x :: xs =>
      if (getTh ths tid).base_priority > (getTh ths x).base_priority then
        tid :: x :: xs
      else
        x :: prioInsert ths tid xs

/-- Scheduler::enqueue_prio. -/
def Scheduler.enqueue_prio (sc : Scheduler) (ths : List Thread) (tid : Int) :
    Scheduler :=
  { sc with rrq := prioInsert ths tid sc.rrq }

/-- Scheduler::enqueue_mlfq: init queues, clamp the level, refresh the
budget from quantum_by_level, append to the FIFO of that level. -/
def Scheduler.enqueue_mlfq (sc : Scheduler) (ths : List Thread) (tid : Int) :
    Scheduler × List Thread :=
  let sc1 := sc.init_mlfq_if_needed
  let th := getTh ths tid
  let lvl := iclamp th.mlfq_level 0 (sc1.levels - 1)
  let th1 := { th with
    mlfq_level := lvl
    quantum_budget := sc1.quantum_by_level.getD lvl.toNat 0 }
  let ths1 := setTh ths tid th1
  let sc2 := { sc1 with
    mlfq := sc1.mlfq.set lvl.toNat ((sc1.mlfq.getD lvl.toNat []) ++ [tid]) }
  (sc2, ths1)

/-- Scheduler::enqueue, dispatching on the policy. -/
def Scheduler.enqueue (sc : Scheduler) (ths : List Thread) (tid : Int) :
    Scheduler × List Thread :=
  match sc.policy with
  | SchedPolicy.RoundRobin => (sc.enqueue_rr tid, ths)
  | SchedPolicy.Priority => (sc.enqueue_prio ths tid, ths)
  | SchedPolicy.MLFQ => sc.enqueue_mlfq ths tid

/-- Scheduler::empty. -/
def Scheduler.emptyQ (sc : Scheduler) : Bool :=
  match sc.policy with
  | SchedPolicy.MLFQ => sc.mlfq.all (fun q => q.isEmpty)
  | _ => sc.rrq.isEmpty

/-- Scheduler::demote_mlfq. -/
def Scheduler.demote_mlfq (sc : Scheduler) (ths : List Thread) (tid : Int) :
    List Thread :=
  if sc.policy ≠ SchedPolicy.MLFQ then ths
  else
    let th := getTh ths tid
    let lvl := min (th.mlfq_level + 1) (sc.levels - 1)
    setTh ths tid { th with
      mlfq_level := lvl
      quantum_budget := sc.quantum_by_level.getD lvl.toNat 0 }

/-- Scheduler::promote_mlfq. -/
def Scheduler.promote_mlfq (sc : Scheduler) (ths : List Thread) (tid : Int) :
    List Thread :=
  if sc.policy ≠ SchedPolicy.MLFQ then ths
  else
    let th := getTh ths tid
    let lvl := max (th.mlfq_level - 1) 0
    setTh ths tid { th with
      mlfq_level := lvl
      quantum_budget := sc.quantum_by_level.getD lvl.toNat 0 }

/-- Body of the aging loop of Scheduler::maybe_age: scan levels from the
given index downward while the index is above 0; at the first non-empty
level, move its head one level up, refresh its budget, and log age. -/
def ageLoop (s : State) : Nat → State
  | 0 => s
  | Nat.succ l =>
      match s.sched.mlfq.getD (l + 1) [] with
      | [] => ageLoop s l
      | tid :: rest =>
          let th := getTh s.threads tid
          let th1 := { th with
            mlfq_level := (l : Int)
            quantum_budget := s.sched.quantum_by_level.getD l 0 }
          let mlfq1 := s.sched.mlfq.set (l + 1) rest
          let mlfq2 := mlfq1.set l ((mlfq1.getD l []) ++ [tid])
          { s with
            sched := { s.sched with mlfq := mlfq2 }
            threads := setTh s.threads tid th1
            log := s.log ++ [LogEntry.mk "age" tid "promote"] }

/-- Scheduler::maybe_age, with the current time passed explicitly. -/
def maybe_age (s : State) (now : Int) : State :=
  if s.sched.policy ≠ SchedPolicy.MLFQ ∨ ¬ s.sched.enable_aging then s
  else if now - s.sched.last_age_ms < s.sched.aging_interval_ms then s
  else
    let s1 := { s with sched := { s.sched with last_age_ms := now } }
    ageLoop s1 (s1.sched.levels - 1).toNat

/-! ### Public API and dispatch path -/

/-- tls_set: g_tls[g_current][key] = value. -/
def tls_set (s : State) (key : String) (value : Int) : State :=
  let tid := s.current
  let m := (lookupA s.tls tid).getD []
  { s with tls := insertA s.tls tid (insertA m key value) }

/-- tls_get: lookup g_current in g_tls, then the key in its map. -/
def tls_get (s : State) (key : String) : Option Int :=
  match lookupA s.tls s.current with
  | none => none
  | some m => lookupA m key

/-- thread_signal: a find miss or an empty wait queue returns at once;
otherwise the head waiter is popped, and when it is BLOCKED it is made
READY, enqueued per policy and a signal event is logged. -/
def thread_signal (s : State) (resource : String) : State :=
  match lookupA s.resources resource with
  | none => s
  | some [] => s
  | some (tid :: rest) =>
      let s1 := { s with resources := insertA s.resources resource rest }
      let th := getTh s1.threads tid
      if th.state = ThreadState.BLOCKED then
        let ths := setTh s1.threads tid { th with state := ThreadState.READY }
        let p := s1.sched.enqueue ths tid
        { s1 with
          sched := p.1
          threads := p.2
          log := s1.log ++ [LogEntry.mk "signal" tid resource] }
      else s1

/-- thread_wait (time-free part): mark BLOCKED, append to the FIFO of
the resource, log wait, promote under MLFQ; then yields to the
scheduler. -/
def thread_wait (s : State) (resource : String) : State :=
  let tid := s.current
  let th := getTh s.threads tid
  let ths := setTh s.threads tid { th with state := ThreadState.BLOCKED }
  let q := (lookupA s.resources resource).getD []
  let s1 := { s with
    threads := ths
    resources := insertA s.resources resource (q ++ [tid])
    log := s.log ++ [LogEntry.mk "wait" tid resource] }
  if s1.sched.policy = SchedPolicy.MLFQ then
    { s1 with threads := s1.sched.promote_mlfq s1.threads tid }
  else s1

/-- thread_work up to (and including) the decision to suspend: the
returned flag records whether platform_yield_to_scheduler is invoked.
The value returned to the caller is read from the thread record after
the task is resumed, see thread_work_call. -/
def thread_work_pre (s : State) (units : Int) : State × Bool :=
  let tid := s.current
  let th := getTh s.threads tid
  let th1 := { th with quantum_budget := th.quantum_budget - max 1 units }
  let s1 := { s with threads := setTh s.threads tid th1 }
  if th1.quantum_budget ≤ 0 then
    let s2 := { s1 with log := s1.log ++ [LogEntry.mk "qexpire" tid "auto-yield"] }
    let s3 := { s2 with threads := s2.sched.demote_mlfq s2.threads tid }
    let th2 := getTh s3.threads tid
    let s4 :=
      if th2.state = ThreadState.RUNNING then
        let ths := setTh s3.threads tid { th2 with state := ThreadState.READY }
        let p := s3.sched.enqueue ths tid
        { s3 with sched := p.1, threads := p.2 }
      else s3
    (s4, true)
  else (s1, false)

/-- Data effects of switch_to_thread before the actual context switch:
store g_current, set RUNNING, refresh the budget from the level quantum
under MLFQ, log run. -/
def switch_to_thread (s : State) (next_tid : Int) : State :=
  let th := getTh s.threads next_tid
  let th1 := { th with
    state := ThreadState.RUNNING
    quantum_budget :=
      if s.sched.policy = SchedPolicy.MLFQ then
        s.sched.quantum_by_level.getD th.mlfq_level.toNat 0
      else th.quantum_budget }
  { s with
    current := next_tid
    threads := setTh s.threads next_tid th1
    log := s.log ++ [LogEntry.mk "run" next_tid th.name] }

/-- Entry part of context_trampoline, executed the first time a NEW
task is dispatched: store g_current, set RUNNING, log start, then set
the budget to the level quantum under MLFQ and to max 1 budget
otherwise. -/
def context_trampoline_start (s : State) (tid : Int) : State :=
  let th := getTh s.threads tid
  let th1 := { th with
    state := ThreadState.RUNNING
    quantum_budget :=
      if s.sched.policy = SchedPolicy.MLFQ then
        s.sched.quantum_by_level.getD th.mlfq_level.toNat 0
      else max 1 th.quantum_budget }
  { s with
    current := tid
    threads := setTh s.threads tid th1
    log := s.log ++ [LogEntry.mk "start" tid th.name] }

/-- One resume of a task by the scheduler: ensure_context builds the
context bound to the trampoline only when the task is NEW, so a first
dispatch runs switch_to_thread followed by the trampoline entry, and
every later resume runs switch_to_thread alone (swapcontext returns
into the suspension point of the task). -/
def dispatch (s : State) (tid : Int) : State :=
  let wasNew := (getTh s.threads tid).state = ThreadState.NEW
  let s1 := switch_to_thread s tid
  if wasNew then context_trampoline_start s1 tid else s1

/-- A full thread_work call in a run where, upon suspension, the
scheduler next resumes the same task with nothing else touching it in
between; the second component is the int value the call returns, read
from the thread record after the resume as in the source. -/
def thread_work_call (s : State) (units : Int) : State × Int :=
  let tid := s.current
  let p := thread_work_pre s units
  if p.2 then
    let s2 := dispatch p.1 tid
    (s2, (getTh s2.threads tid).quantum_budget)
  else
    (p.1, (getTh p.1.threads tid).quantum_budget)

/-- thread_yield. The flag records that platform_yield_to_scheduler is
invoked, which the source does unconditionally, also when g_current is
-1. -/
def thread_yield (s : State) : State × Bool :=
  let tid := s.current
  let s1 :=
    if tid ≥ 0 then
      let th := getTh s.threads tid
      if th.state = ThreadState.RUNNING then
        let ths := setTh s.threads tid { th with state := ThreadState.READY }
        let p := s.sched.enqueue ths tid
        { s with sched := p.1, threads := p.2, log := s.log ++ [LogEntry.mk "yield" tid ""] }
      else s
    else s
  (s1, true)

/-- platform_yield_to_scheduler evaluates g_threads[g_current.load()];
this predicate states that this task-table access is in range. -/
def platform_yield_access_ok (s : State) : Prop :=
  0 ≤ s.current ∧ s.current.toNat < s.threads.length

/-- Start of thread_run: consult SCHED once, then log boot with the
policy name. -/
def policyName : SchedPolicy → String
  | SchedPolicy.RoundRobin => "rr"
  | SchedPolicy.Priority => "prio"
  | SchedPolicy.MLFQ => "mlfq"

def thread_run_boot (s : State) (env : Option String) : State :=
  let sc := s.sched.set_policy_from_env env
  { s with sched := sc, log := s.log ++ [LogEntry.mk "boot" (-1) (policyName sc.policy)] }

/-! ### Helper lemmas on list indexing and association lists -/

theorem getD_set_self {α : Type} : ∀ (l : List α) (i : Nat) (a d : α),
    i < l.length → (l.set i a).getD i d = a
  | _ :: _, 0, _, _, _ => rfl
  | _ :: xs, i + 1, a, d, h => getD_set_self xs i a d (Nat.lt_of_succ_lt_succ h)

theorem getD_set_ne {α : Type} : ∀ (l : List α) (i j : Nat) (a d : α),
    i ≠ j → (l.set i a).getD j d = l.getD j d
  | [], _, _, _, _, _ => rfl
  | _ :: _, 0, 0, _, _, h => absurd rfl h
  | _ :: _, 0, _ + 1, _, _, _ => rfl
  | _ :: _, _ + 1, 0, _, _, _ => rfl
  | _ :: xs, i + 1, j + 1, a, d, h =>
      getD_set_ne xs i j a d (fun e => h (by rw [e]))

theorem getTh_setTh_self (ths : List Thread) (tid : Int) (th : Thread)
    (h : tid.toNat < ths.length) : getTh (setTh ths tid th) tid = th :=
  getD_set_self ths tid.toNat th defaultThread h

theorem getTh_setTh_ne (ths : List Thread) (tid u : Int) (th : Thread)
    (h : tid.toNat ≠ u.toNat) : getTh (setTh ths tid th) u = getTh ths u :=
  getD_set_ne ths tid.toNat u.toNat th defaultThread h

theorem length_setTh (ths : List Thread) (tid : Int) (th : Thread) :
    (setTh ths tid th).length = ths.length := by
  simp [setTh]

theorem mem_set_self {α : Type} : ∀ (l : List α) (i : Nat) (a : α),
    i < l.length → a ∈ l.set i a
  | _ :: _, 0, _, _ => List.mem_cons_self _ _
  | x :: xs, i + 1, a, h =>
      List.mem_cons_of_mem x (mem_set_self xs i a (Nat.lt_of_succ_lt_succ h))

theorem lookupA_insertA_self {α β : Type} [DecidableEq α]
    (l : List (α × β)) (a : α) (b : β) :
    lookupA (insertA l a b) a = some b := by
  induction l with
  | nil => simp [lookupA, insertA]
  | cons kv rest ih =>
      obtain ⟨k, v⟩ := kv
      by_cases h : k = a <;> simp [lookupA, insertA, h, ih]

theorem lookupA_insertA_ne {α β : Type} [DecidableEq α]
    (l : List (α × β)) (a a' : α) (b : β) (h : a' ≠ a) :
    lookupA (insertA l a b) a' = lookupA l a' := by
  have h' : ¬ (a = a') := fun e => h e.symm
  induction l with
  | nil => simp [lookupA, insertA, h']
  | cons kv rest ih =>
      obtain ⟨k, v⟩ := kv
      by_cases hk : k = a
      · subst hk
        simp [lookupA, insertA, h']
      · by_cases hk' : k = a' <;> simp [lookupA, insertA, hk, hk', h, h', ih]

/-! ### C1: policy and environment precedence -/

def sC1cex : Scheduler := { policy := SchedPolicy.Priority }

/-- C1 counterexample: the policy has been validly chosen as Priority
via set_policy, SCHED is set to a value other than prio, priority and
mlfq, yet the run-loop start does not leave the policy unchanged: it
resets it to RoundRobin. -/
theorem C1_env_other_value_cex :
    sC1cex.policy = SchedPolicy.Priority ∧
    (sC1cex.set_policy_from_env (some "rr")).policy = SchedPolicy.RoundRobin ∧
    SchedPolicy.RoundRobin ≠ SchedPolicy.Priority := by
  refine ⟨rfl, ?_, by decide⟩
  simp [Scheduler.set_policy_from_env, sC1cex]

/-- C1 (amended): when thread_run starts, SCHED equal to prio or
priority selects Priority and mlfq selects MLFQ; an unset SCHED leaves
the previously chosen policy unchanged; any other set value resets the
policy to RoundRobin. The override applies whenever SCHED is set,
regardless of a previously chosen policy: the validity guard in
set_policy_from_env never fires, since the policy is always one of the
three enumerators. -/
theorem C1_policy_env_precedence (s : State) (env : Option String) :
    (env = none → (thread_run_boot s env).sched.policy = s.sched.policy) ∧
    (env = some "prio" ∨ env = some "priority" →
      (thread_run_boot s env).sched.policy = SchedPolicy.Priority) ∧
    (env = some "mlfq" →
      (thread_run_boot s env).sched.policy = SchedPolicy.MLFQ) ∧
    (∀ v, env = some v → v ≠ "prio" → v ≠ "priority" → v ≠ "mlfq" →
      (thread_run_boot s env).sched.policy = SchedPolicy.RoundRobin) := by
  refine ⟨?_, ?_, ?_, ?_⟩
  · rintro rfl
    simp [thread_run_boot, Scheduler.set_policy_from_env]
  · rintro (rfl | rfl) <;>
      simp [thread_run_boot, Scheduler.set_policy_from_env]
  · rintro rfl
    simp [thread_run_boot, Scheduler.set_policy_from_env]
  · rintro v rfl h1 h2 h3
    simp [thread_run_boot, Scheduler.set_policy_from_env, h1, h2, h3]

/-- C1 witness: instantiation of the amended theorem at SCHED=mlfq over
a scheduler previously set to Priority. -/
theorem C1_policy_env_precedence_witness :
    (thread_run_boot { sched := sC1cex } (some "mlfq")).sched.policy =
      SchedPolicy.MLFQ :=
  (C1_policy_env_precedence { sched := sC1cex } (some "mlfq")).2.2.1 rfl

/-! ### C4: yield with no current task -/

def sC4 : State :=
  { threads := [{ tid := 0, state := ThreadState.READY }], current := -1 }

/-- C4: with no current task (g_current = -1), thread_yield changes no
task state and no queue, but it does not simply return: it still
invokes platform_yield_to_scheduler, whose evaluation of
g_threads[g_current.load()] is an out-of-range task-table access (index
-1), contradicting the no-op specification. -/
theorem C4_yield_no_current :
    (thread_yield sC4).1 = sC4 ∧
    (thread_yield sC4).2 = true ∧
    ¬ platform_yield_access_ok (thread_yield sC4).1 := by
  refine ⟨by decide, rfl, ?_⟩
  intro h
  exact absurd h.1 (by decide)

/-! ### C2: quantum accounting on dispatch -/

theorem sched_switch_to_thread (s : State) (tid : Int) :
    (switch_to_thread s tid).sched = s.sched := rfl

theorem getTh_switch_to_thread (s : State) (tid : Int)
    (hlen : tid.toNat < s.threads.length) :
    getTh (switch_to_thread s tid).threads tid =
      { getTh s.threads tid with
          state := ThreadState.RUNNING
          quantum_budget :=
            if s.sched.policy = SchedPolicy.MLFQ then
              s.sched.quantum_by_level.getD
                (getTh s.threads tid).mlfq_level.toNat 0
            else (getTh s.threads tid).quantum_budget } := by
  simp [switch_to_thread, getTh_setTh_self _ _ _ hlen]

theorem threads_length_switch_to_thread (s : State) (tid : Int) :
    (switch_to_thread s tid).threads.length = s.threads.length := by
  simp [switch_to_thread, length_setTh]

theorem getTh_context_trampoline_start (s : State) (tid : Int)
    (hlen : tid.toNat < s.threads.length) :
    getTh (context_trampoline_start s tid).threads tid =
      { getTh s.threads tid with
          state := ThreadState.RUNNING
          quantum_budget :=
            if s.sched.policy = SchedPolicy.MLFQ then
              s.sched.quantum_by_level.getD
                (getTh s.threads tid).mlfq_level.toNat 0
            else max 1 (getTh s.threads tid).quantum_budget } := by
  simp [context_trampoline_start, getTh_setTh_self _ _ _ hlen]

def sC2cex : State :=
  { threads := [{ tid := 0, state := ThreadState.READY, quantum_budget := -2 }]
    current := -1 }

/-- C2 counterexample: a RoundRobin task that previously overdrew its
quantum is re-dispatched (it is READY, no longer NEW, so the scheduler
resumes it through switch_to_thread alone): it becomes RUNNING but
starts this dispatch with quantum_budget -2, which is not reset to a
positive default. -/
theorem C2_dispatch_budget_cex :
    sC2cex.sched.policy = SchedPolicy.RoundRobin ∧
    (getTh sC2cex.threads 0).state ≠ ThreadState.NEW ∧
    (getTh (dispatch sC2cex 0).threads 0).state = ThreadState.RUNNING ∧
    (getTh (dispatch sC2cex 0).threads 0).quantum_budget = -2 ∧
    ¬ (1 ≤ (getTh (dispatch sC2cex 0).threads 0).quantum_budget) := by
  decide

/-- C2 (amended): upon resuming a task, if the policy is MLFQ its
quantum_budget becomes quantum_by_level[mlfq_level]; under RoundRobin
or Priority the reset of a non-positive budget to max 1 budget happens
only on the first dispatch of the task (the trampoline path, taken when
the task is still NEW); a later resume leaves a non-MLFQ budget
unchanged, so a task can start such a dispatch with a non-positive
budget. In all cases the task becomes RUNNING. -/
theorem C2_dispatch_budget (s : State) (tid : Int)
    (hlen : tid.toNat < s.threads.length) :
    (s.sched.policy = SchedPolicy.MLFQ →
      (getTh (dispatch s tid).threads tid).quantum_budget =
        s.sched.quantum_by_level.getD
          (getTh s.threads tid).mlfq_level.toNat 0) ∧
    (s.sched.policy ≠ SchedPolicy.MLFQ →
      (getTh s.threads tid).state = ThreadState.NEW →
      (getTh (dispatch s tid).threads tid).quantum_budget =
        max 1 (getTh s.threads tid).quantum_budget) ∧
    (s.sched.policy ≠ SchedPolicy.MLFQ →
      (getTh s.threads tid).state ≠ ThreadState.NEW →
      (getTh (dispatch s tid).threads tid).quantum_budget =
        (getTh s.threads tid).quantum_budget) ∧
    (getTh (dispatch s tid).threads tid).state = ThreadState.RUNNING := by
  have hlen1 : tid.toNat < (switch_to_thread s tid).threads.length := by
    rw [threads_length_switch_to_thread]; exact hlen
  by_cases hnew : (getTh s.threads tid).state = ThreadState.NEW
  · have hd : dispatch s tid =
        context_trampoline_start (switch_to_thread s tid) tid := by
      simp [dispatch, hnew]
    by_cases hpol : s.sched.policy = SchedPolicy.MLFQ <;>
      simp [hd, getTh_context_trampoline_start _ _ hlen1,
        sched_switch_to_thread, getTh_switch_to_thread _ _ hlen, hpol, hnew]
  · have hd : dispatch s tid = switch_to_thread s tid := by
      simp [dispatch, hnew]
    by_cases hpol : s.sched.policy = SchedPolicy.MLFQ <;>
      simp [hd, getTh_switch_to_thread _ _ hlen, hpol, hnew]

def sC2wit : State :=
  { sched := { policy := SchedPolicy.MLFQ }
    threads := [{ tid := 0, mlfq_level := 1 }] }

/-- C2 witness: instantiation of the amended theorem at a NEW MLFQ task
of level 1 with quanta 8,4,2: its budget on dispatch is 4. -/
theorem C2_dispatch_budget_witness :
    (0 : Nat) < sC2wit.threads.length ∧
    (getTh (dispatch sC2wit 0).threads 0).quantum_budget = 4 := by
  refine ⟨by decide, ?_⟩
  have h := (C2_dispatch_budget sC2wit 0 (by decide)).1 rfl
  simpa [sC2wit, getTh] using h

/-! ### C9: work below the quantum is pure budget accounting -/

/-- C9: when thread_work decrements the budget of the running task and
the result stays strictly positive, no suspension happens and the only
change in the whole runtime state is that quantum_budget of the calling
task: scheduler queues, the log, the resource registry, the current
index, the state and mlfq_level of the caller and every other thread
record are untouched. -/
theorem C9_work_below_quantum (s : State) (units : Int)
    (hlen : s.current.toNat < s.threads.length)
    (hpos : 0 < (getTh s.threads s.current).quantum_budget - max 1 units) :
    (thread_work_pre s units).2 = false ∧
    (thread_work_pre s units).1.sched = s.sched ∧
    (thread_work_pre s units).1.log = s.log ∧
    (thread_work_pre s units).1.current = s.current ∧
    (thread_work_pre s units).1.resources = s.resources ∧
    (thread_work_pre s units).1.tls = s.tls ∧
    (getTh (thread_work_pre s units).1.threads s.current).state =
      (getTh s.threads s.current).state ∧
    (getTh (thread_work_pre s units).1.threads s.current).mlfq_level =
      (getTh s.threads s.current).mlfq_level ∧
    (getTh (thread_work_pre s units).1.threads s.current).quantum_budget =
      (getTh s.threads s.current).quantum_budget - max 1 units ∧
    (∀ u : Int, u.toNat ≠ s.current.toNat →
      getTh (thread_work_pre s units).1.threads u = getTh s.threads u) := by
  have hc : ¬ ((getTh s.threads s.current).quantum_budget - max 1 units ≤ 0) := by
    omega
  refine ⟨?_, ?_, ?_, ?_, ?_, ?_, ?_, ?_, ?_, ?_⟩ <;>
    simp [thread_work_pre, hc, getTh_setTh_self _ _ _ hlen]
  intro u hu
  exact getTh_setTh_ne _ _ _ _ (fun e => hu e.symm)

def sC9wit : State :=
  { threads := [{ tid := 0, state := ThreadState.RUNNING }]
    current := 0 }

/-- C9 witness: a RUNNING task with budget 8 doing thread_work 3 keeps
running with budget 5 and nothing else changes. -/
theorem C9_work_below_quantum_witness :
    (0 : Int) < 8 - max 1 3 ∧
    (thread_work_pre sC9wit 3).2 = false ∧
    (getTh (thread_work_pre sC9wit 3).1.threads sC9wit.current).quantum_budget
      = 5 := by
  have h := C9_work_below_quantum sC9wit 3 (by decide) (by decide)
  refine ⟨by decide, h.1, ?_⟩
  rw [h.2.2.2.2.2.2.2.2.1]
  decide

/-! ### C7: demotion invariant at quantum expiry -/

theorem levels_init (sc : Scheduler) :
    sc.init_mlfq_if_needed.levels = sc.levels := by
  simp only [Scheduler.init_mlfq_if_needed]
  split_ifs <;> rfl

theorem policy_init (sc : Scheduler) :
    sc.init_mlfq_if_needed.policy = sc.policy := by
  simp only [Scheduler.init_mlfq_if_needed]
  split_ifs <;> rfl

theorem init_mlfq_noop (sc : Scheduler)
    (hml : sc.mlfq.length = sc.levels.toNat)
    (hqb : sc.quantum_by_level.length = sc.levels.toNat) :
    sc.init_mlfq_if_needed = sc := by
  simp [Scheduler.init_mlfq_if_needed, hml, hqb]

/-- C7: whenever a qexpire event is emitted under MLFQ (thread_work
crossing zero), the level of the emitting task right after the event is
min(prev+1, levels-1): the demotion is applied and the clamp performed
by the re-enqueue does not change it. -/
theorem C7_qexpire_demotion (s : State) (units : Int)
    (hlen : s.current.toNat < s.threads.length)
    (hpol : s.sched.policy = SchedPolicy.MLFQ)
    (hlv : 1 ≤ s.sched.levels)
    (hlv0 : 0 ≤ (getTh s.threads s.current).mlfq_level)
    (hexp : (getTh s.threads s.current).quantum_budget - max 1 units ≤ 0) :
    (thread_work_pre s units).1.log =
      s.log ++ [LogEntry.mk "qexpire" s.current "auto-yield"] ∧
    (getTh (thread_work_pre s units).1.threads s.current).mlfq_level =
      min ((getTh s.threads s.current).mlfq_level + 1) (s.sched.levels - 1) := by
  have hcl : iclamp (min ((getTh s.threads s.current).mlfq_level + 1)
      (s.sched.levels - 1)) 0 (s.sched.levels - 1) =
      min ((getTh s.threads s.current).mlfq_level + 1) (s.sched.levels - 1) := by
    simp only [iclamp]
    omega
  have hlev := levels_init s.sched
  by_cases hrun : (getTh s.threads s.current).state = ThreadState.RUNNING <;>
    simp [thread_work_pre, hexp, hpol, hrun, Scheduler.demote_mlfq,
      Scheduler.enqueue, Scheduler.enqueue_mlfq, hlev, hcl, hlen,
      getTh_setTh_self, length_setTh]

def sC7wit : State :=
  { sched := { policy := SchedPolicy.MLFQ, mlfq := [[], [], []] }
    threads := [{ tid := 0, state := ThreadState.RUNNING, quantum_budget := 2 }]
    current := 0 }

/-- C7 witness: a level-0 MLFQ task with budget 2 calling thread_work 5
expires its quantum and sits at level min(0+1, 2) = 1 afterwards. -/
theorem C7_qexpire_demotion_witness :
    (getTh sC7wit.threads sC7wit.current).quantum_budget - max 1 5 ≤ 0 ∧
    (getTh (thread_work_pre sC7wit 5).1.threads sC7wit.current).mlfq_level
      = 1 := by
  have h := C7_qexpire_demotion sC7wit 5 (by decide) rfl (by decide)
    (by decide) (by decide)
  refine ⟨by decide, ?_⟩
  rw [h.2]
  decide

/-! ### C10: thread-local storage round trip -/

/-- Key never set by task t: either t has no TLS map, or its map has no
entry for the key. -/
def tlsUnset (s : State) (t : Int) (k : String) : Prop :=
  ∀ m, lookupA s.tls t = some m → lookupA m k = none

/-- C10: tls_get after tls_set of the same key by the same task returns
the stored value; a tls_set leaves every other key of the same task and
everything observed under any other tid unchanged; a key never set by
the observing task reads back none, never-set-ness holds initially and
is preserved by tls_set of a different (task, key) pair. -/
theorem C10_tls_round_trip (s : State) (key key2 : String) (v : Int)
    (t : Int) :
    tls_get (tls_set s key v) key = some v ∧
    (key2 ≠ key → tls_get (tls_set s key v) key2 = tls_get s key2) ∧
    (t ≠ s.current →
      tls_get { tls_set s key v with current := t } key2 =
        tls_get { s with current := t } key2) ∧
    (tlsUnset s s.current key → tls_get s key = none) ∧
    (∀ s0 : State, s0.tls = [] → tlsUnset s0 t key) ∧
    (tlsUnset s t key2 → (t ≠ s.current ∨ key2 ≠ key) →
      tlsUnset (tls_set s key v) t key2) := by
  refine ⟨?_, ?_, ?_, ?_, ?_, ?_⟩
  · simp [tls_get, tls_set, lookupA_insertA_self]
  · intro hk
    have hk2 : ¬ (key = key2) := fun e => hk e.symm
    cases hl : lookupA s.tls s.current with
    | none =>
        simp [tls_get, tls_set, hl, lookupA_insertA_self,
          lookupA_insertA_ne _ _ _ _ hk, lookupA, hk2]
    | some m =>
        simp [tls_get, tls_set, hl, lookupA_insertA_self,
          lookupA_insertA_ne _ _ _ _ hk]
  · intro ht
    simp [tls_get, tls_set, lookupA_insertA_ne _ _ _ _ ht]
  · intro hu
    cases hl : lookupA s.tls s.current with
    | none => simp [tls_get, hl]
    | some m => simp [tls_get, hl, hu m hl]
  · intro s0 h0 m hm
    rw [h0] at hm
    exact absurd hm (by simp [lookupA])
  · intro hu hcase m hm
    by_cases ht : t = s.current
    · subst ht
      rw [tls_set] at hm
      simp only [lookupA_insertA_self] at hm
      have hk : key2 ≠ key := by
        rcases hcase with h | h
        · exact absurd rfl h
        · exact h
      cases hm
      rw [lookupA_insertA_ne _ _ _ _ hk]
      cases hl : lookupA s.tls s.current with
      | none => simp [hl, lookupA]
      | some m0 => simpa [hl] using hu m0 hl
    · rw [tls_set] at hm
      simp only [lookupA_insertA_ne _ _ _ _ ht] at hm
      exact hu m hm

def sC10wit : State := { current := 2, tls := [(7, [("w", 9)])] }

/-- C10 witness: on a state where task 7 has w set to 9, task 2 sets k
to 42 and reads it back; the value of w seen under task 7 is untouched
and a never-set key of task 2 reads none. -/
theorem C10_tls_round_trip_witness :
    tls_get (tls_set sC10wit "k" 42) "k" = some 42 ∧
    tls_get { tls_set sC10wit "k" 42 with current := 7 } "w" =
      tls_get { sC10wit with current := 7 } "w" ∧
    tls_get sC10wit "k" = none := by
  have h := C10_tls_round_trip sC10wit "k" "w" 42 7
  refine ⟨h.1, h.2.2.1 (by decide), h.2.2.2.1 ?_⟩
  intro m hm
  simp [sC10wit, lookupA] at hm

/-! ### C8: wake-one signal semantics -/

/-- All tids held in ready structures of the scheduler (the single
rr/priority queue and every MLFQ level FIFO). -/
def readyMembers (sc : Scheduler) : List Int := sc.rrq ++ sc.mlfq.flatten

theorem mem_prioInsert_self (ths : List Thread) (tid : Int) :
    ∀ q : List Int, tid ∈ prioInsert ths tid q
  | [] => by simp [prioInsert]
  | x :: xs => by
      by_cases h : (getTh ths tid).base_priority > (getTh ths x).base_priority
      · simp [prioInsert, h]
      · simpa [prioInsert, h] using Or.inr (mem_prioInsert_self ths tid xs)

theorem mem_enqueue (sc : Scheduler) (ths : List Thread) (tid : Int)
    (hlv : 1 ≤ sc.levels)
    (hml : sc.mlfq.length = sc.levels.toNat)
    (hqb : sc.quantum_by_level.length = sc.levels.toNat) :
    tid ∈ readyMembers (sc.enqueue ths tid).1 := by
  cases hp : sc.policy with
  | RoundRobin => simp [Scheduler.enqueue, hp, Scheduler.enqueue_rr, readyMembers]
  | Priority =>
      simp [Scheduler.enqueue, hp, Scheduler.enqueue_prio, readyMembers,
        mem_prioInsert_self]
  | MLFQ =>
      have hinit := init_mlfq_noop sc hml hqb
      have hb : 0 ≤ iclamp (getTh ths tid).mlfq_level 0 (sc.levels - 1) ∧
          iclamp (getTh ths tid).mlfq_level 0 (sc.levels - 1) ≤ sc.levels - 1 := by
        simp only [iclamp]
        omega
      have hidx : (iclamp (getTh ths tid).mlfq_level 0 (sc.levels - 1)).toNat <
          sc.mlfq.length := by
        rw [hml]
        omega
      simp only [Scheduler.enqueue, hp, Scheduler.enqueue_mlfq, hinit,
        readyMembers, List.mem_append, List.mem_flatten]
      refine Or.inr ⟨(sc.mlfq.getD
        (iclamp (getTh ths tid).mlfq_level 0 (sc.levels - 1)).toNat []) ++ [tid],
        ?_, by simp⟩
      exact mem_set_self _ _ _ hidx

theorem state_enqueue (sc : Scheduler) (ths : List Thread) (tid : Int)
    (hlen : tid.toNat < ths.length) :
    (getTh (sc.enqueue ths tid).2 tid).state = (getTh ths tid).state := by
  cases hp : sc.policy <;>
    simp [Scheduler.enqueue, hp, Scheduler.enqueue_rr, Scheduler.enqueue_prio,
      Scheduler.enqueue_mlfq, getTh_setTh_self, hlen, length_setTh]

/-- C8: signaling a resource with no registry entry or an empty wait
queue is the identity on the whole runtime state (no task state change,
no enqueue, no event, and nothing is stored for future waiters); when
waiters exist exactly the head of the FIFO is removed, and if it is
BLOCKED it becomes READY, enters a ready structure of the scheduler and
a signal event is logged, while a non-BLOCKED head is dropped with no
other effect. -/
theorem C8_signal (s : State) (r : String)
    (hlv : 1 ≤ s.sched.levels)
    (hml : s.sched.mlfq.length = s.sched.levels.toNat)
    (hqb : s.sched.quantum_by_level.length = s.sched.levels.toNat) :
    (lookupA s.resources r = none → thread_signal s r = s) ∧
    (lookupA s.resources r = some [] → thread_signal s r = s) ∧
    (∀ w rest, lookupA s.resources r = some (w :: rest) →
      (thread_signal s r).resources = insertA s.resources r rest ∧
      ((getTh s.threads w).state = ThreadState.BLOCKED →
        w ∈ readyMembers (thread_signal s r).sched ∧
        (w.toNat < s.threads.length →
          (getTh (thread_signal s r).threads w).state = ThreadState.READY) ∧
        (thread_signal s r).log = s.log ++ [LogEntry.mk "signal" w r]) ∧
      ((getTh s.threads w).state ≠ ThreadState.BLOCKED →
        (thread_signal s r).threads = s.threads ∧
        (thread_signal s r).sched = s.sched ∧
        (thread_signal s r).log = s.log)) := by
  refine ⟨?_, ?_, ?_⟩
  · intro h
    simp [thread_signal, h]
  · intro h
    simp [thread_signal, h]
  · intro w rest hw
    by_cases hb : (getTh s.threads w).state = ThreadState.BLOCKED
    · refine ⟨?_, fun _ => ⟨?_, ?_, ?_⟩, fun hnb => absurd hb hnb⟩
      · simp [thread_signal, hw, hb]
      · simpa [thread_signal, hw, hb] using
          mem_enqueue s.sched
            (setTh s.threads w
              { getTh s.threads w with state := ThreadState.READY }) w
            hlv hml hqb
      · intro hwlen
        have hst := state_enqueue s.sched
          (setTh s.threads w
            { getTh s.threads w with state := ThreadState.READY }) w
          (by rw [length_setTh]; exact hwlen)
        rw [getTh_setTh_self _ _ _ hwlen] at hst
        simpa [thread_signal, hw, hb] using hst
      · simp [thread_signal, hw, hb]
    · refine ⟨?_, fun hbb => absurd hbb hb, fun _ => ⟨?_, ?_, ?_⟩⟩ <;>
        simp [thread_signal, hw, hb]

def sC8wit : State :=
  { sched := { mlfq := [[], [], []] }
    threads := [{ tid := 0, state := ThreadState.BLOCKED }]
    resources := [("go", [0]), ("idle", [])] }

/-- C8 witness: with one BLOCKED waiter on resource go, signal wakes
exactly that waiter (READY, enqueued, signal event) and removes it from
the wait queue; signaling the empty resource idle or the absent
resource nope is the identity. -/
theorem C8_signal_witness :
    thread_signal sC8wit "nope" = sC8wit ∧
    thread_signal sC8wit "idle" = sC8wit ∧
    (thread_signal sC8wit "go").resources =
      insertA sC8wit.resources "go" [] ∧
    (0 : Int) ∈ readyMembers (thread_signal sC8wit "go").sched ∧
    (getTh (thread_signal sC8wit "go").threads 0).state =
      ThreadState.READY := by
  have h := C8_signal sC8wit "go" (by decide) (by decide) (by decide)
  have h1 := C8_signal sC8wit "nope" (by decide) (by decide) (by decide)
  have h2 := C8_signal sC8wit "idle" (by decide) (by decide) (by decide)
  have h3 := h.2.2 0 [] (by decide)
  have h4 := h3.2.1 (by decide)
  exact ⟨h1.1 (by decide), h2.2.1 (by decide), h3.1, h4.1,
    h4.2.1 (by decide)⟩

/-! ### C5: priority enqueue position and FIFO among equal priorities -/

/-- Ordering invariant of the priority queue: every earlier element has
base_priority at least that of every later element. -/
def prioGE (ths : List Thread) (x y : Int) : Prop :=
  (getTh ths y).base_priority ≤ (getTh ths x).base_priority

theorem mem_prioInsert (ths : List Thread) (t y : Int) :
    ∀ q : List Int, y ∈ prioInsert ths t q ↔ y = t ∨ y ∈ q
  | [] => by simp [prioInsert]
  | x :: xs => by
      by_cases hc : (getTh ths t).base_priority > (getTh ths x).base_priority
      · simp [prioInsert, hc]
      · simp only [prioInsert, if_neg hc, List.mem_cons,
          mem_prioInsert ths t y xs]
        tauto

theorem prioInsert_characterization (ths : List Thread) (tid : Int) :
    ∀ q : List Int,
      prioInsert ths tid q =
        q.takeWhile (fun x => decide ((getTh ths tid).base_priority ≤
          (getTh ths x).base_priority)) ++
        tid :: q.dropWhile (fun x => decide ((getTh ths tid).base_priority ≤
          (getTh ths x).base_priority))
  | [] => by simp [prioInsert]
  | x :: xs => by
      by_cases hc : (getTh ths tid).base_priority > (getTh ths x).base_priority
      · have hx : ¬ ((getTh ths tid).base_priority ≤
            (getTh ths x).base_priority) := by omega
        simp [prioInsert, hc, List.takeWhile_cons, List.dropWhile_cons, hx]
      · have hx : (getTh ths tid).base_priority ≤
            (getTh ths x).base_priority := by omega
        simp [prioInsert, hc, List.takeWhile_cons, List.dropWhile_cons, hx,
          prioInsert_characterization ths tid xs]

theorem sublist_prioInsert (ths : List Thread) (t : Int) :
    ∀ (q l : List Int), l.Sublist q → l.Sublist (prioInsert ths t q)
  | [], l, h => by
      have hl : l = [] := List.sublist_nil.mp h
      subst hl
      exact List.nil_sublist _
  | x :: xs, l, h => by
      by_cases hc : (getTh ths t).base_priority > (getTh ths x).base_priority
      · simpa [prioInsert, hc] using List.Sublist.cons t h
      · simp only [prioInsert, if_neg hc]
        cases h with
        | cons _ h' => exact List.Sublist.cons x (sublist_prioInsert ths t xs l h')
        | cons₂ _ h' => exact List.Sublist.cons₂ x (sublist_prioInsert ths t xs _ h')

theorem pairwise_prioInsert (ths : List Thread) (t : Int) :
    ∀ q : List Int, List.Pairwise (prioGE ths) q →
      List.Pairwise (prioGE ths) (prioInsert ths t q)
  | [], _ => by simp [prioInsert, prioGE]
  | x :: xs, hp => by
      obtain ⟨hx, hxs⟩ := List.pairwise_cons.mp hp
      by_cases hc : (getTh ths t).base_priority > (getTh ths x).base_priority
      · simp only [prioInsert, if_pos hc]
        refine List.pairwise_cons.mpr ⟨?_, hp⟩
        intro y hy
        rcases List.mem_cons.mp hy with rfl | hy'
        · exact le_of_lt hc
        · exact le_trans (hx y hy') (le_of_lt hc)
      · simp only [prioInsert, if_neg hc]
        refine List.pairwise_cons.mpr
          ⟨?_, pairwise_prioInsert ths t xs hxs⟩
        intro y hy
        rcases (mem_prioInsert ths t y xs).mp hy with rfl | hy'
        · exact le_of_not_lt hc
        · exact hx y hy'

theorem pair_sublist_prioInsert (ths : List Thread) (t a : Int)
    (heq : (getTh ths a).base_priority = (getTh ths t).base_priority) :
    ∀ q : List Int, List.Pairwise (prioGE ths) q → a ∈ q →
      [a, t].Sublist (prioInsert ths t q)
  | [], _, ha => absurd ha (List.not_mem_nil a)
  | x :: xs, hp, ha => by
      obtain ⟨hx, hxs⟩ := List.pairwise_cons.mp hp
      by_cases hc : (getTh ths t).base_priority > (getTh ths x).base_priority
      · exfalso
        rcases List.mem_cons.mp ha with rfl | ha'
        · omega
        · have hpa := hx a ha'
          simp only [prioGE] at hpa
          omega
      · simp only [prioInsert, if_neg hc]
        rcases List.mem_cons.mp ha with rfl | ha'
        · exact List.Sublist.cons₂ a (List.singleton_sublist.mpr
            ((mem_prioInsert ths t t xs).mpr (Or.inl rfl)))
        · exact List.Sublist.cons x
            (pair_sublist_prioInsert ths t a heq xs hxs ha')

theorem prioFold_sublist (ths : List Thread) (a b : Int)
    (heq : (getTh ths a).base_priority = (getTh ths b).base_priority) :
    ∀ (es q : List Int), List.Pairwise (prioGE ths) q →
      ([a, b].Sublist q ∨ (a ∈ q ∧ b ∈ es) ∨ [a, b].Sublist es) →
      [a, b].Sublist (es.foldl (fun acc t => prioInsert ths t acc) q)
  | [], q, _, hcase => by
      rcases hcase with h | ⟨_, hb⟩ | h
      · simpa using h
      · exact absurd hb (List.not_mem_nil b)
      · exact absurd h (by simp)
  | e :: es', q, hp, hcase => by
      have hp' : List.Pairwise (prioGE ths) (prioInsert ths e q) :=
        pairwise_prioInsert ths e q hp
      simp only [List.foldl_cons]
      rcases hcase with h | ⟨ha, hb⟩ | h
      · exact prioFold_sublist ths a b heq es' _ hp'
          (Or.inl (sublist_prioInsert ths e q _ h))
      · rcases List.mem_cons.mp hb with rfl | hb'
        · exact prioFold_sublist ths a b heq es' _ hp'
            (Or.inl (pair_sublist_prioInsert ths b a heq q hp ha))
        · exact prioFold_sublist ths a b heq es' _ hp'
            (Or.inr (Or.inl ⟨(mem_prioInsert ths e a q).mpr (Or.inr ha), hb'⟩))
      · cases h with
        | cons _ h' =>
            exact prioFold_sublist ths a b heq es' _ hp' (Or.inr (Or.inr h'))
        | cons₂ _ h' =>
            exact prioFold_sublist ths a b heq es' _ hp'
              (Or.inr (Or.inl ⟨(mem_prioInsert ths a a q).mpr (Or.inl rfl),
                List.singleton_sublist.mp h'⟩))

/-- C5: under the Priority policy an enqueue places the tid exactly
after the longest prefix of elements whose base_priority is at least
its own, i.e. before the first element of strictly smaller
base_priority, appending when no such element exists; consequently for
every sequence of enqueues into an initially empty queue, two enqueued
tasks of equal base_priority occur in the final queue in the FIFO order
of their enqueues. -/
theorem C5_priority_enqueue (ths : List Thread) (sc : Scheduler)
    (es : List Int) (a b : Int)
    (heq : (getTh ths a).base_priority = (getTh ths b).base_priority)
    (hab : [a, b].Sublist es) :
    (∀ tid : Int, (sc.enqueue_prio ths tid).rrq =
      sc.rrq.takeWhile (fun x => decide ((getTh ths tid).base_priority ≤
        (getTh ths x).base_priority)) ++
      tid :: sc.rrq.dropWhile (fun x => decide ((getTh ths tid).base_priority ≤
        (getTh ths x).base_priority))) ∧
    [a, b].Sublist (es.foldl (fun q t => prioInsert ths t q) []) := by
  constructor
  · intro tid
    simp [Scheduler.enqueue_prio, prioInsert_characterization]
  · exact prioFold_sublist ths a b heq es [] List.Pairwise.nil
      (Or.inr (Or.inr hab))

def thsC5 : List Thread :=
  [{ tid := 0, base_priority := 5 }, { tid := 1, base_priority := 5 },
   { tid := 2, base_priority := 9 }]

/-- C5 witness: tids 0 and 1 share priority 5, tid 2 has priority 9;
enqueuing 0, 2, 1 yields the queue 2, 0, 1, in which 0 still precedes
1. -/
theorem C5_priority_enqueue_witness :
    (getTh thsC5 0).base_priority = (getTh thsC5 1).base_priority ∧
    [(0 : Int), 1].Sublist [0, 2, 1] ∧
    [(0 : Int), 1].Sublist (([0, 2, 1] : List Int).foldl
      (fun q t => prioInsert thsC5 t q) []) :=
  ⟨by decide, by decide,
    (C5_priority_enqueue thsC5 {} [0, 2, 1] 0 1 (by decide) (by decide)).2⟩

/-! ### C3: value returned by thread_work -/

def sC3cex : State :=
  { sched := { policy := SchedPolicy.MLFQ, mlfq := [[], [], []] }
    threads := [{ tid := 0, state := ThreadState.RUNNING, quantum_budget := 2 }]
    current := 0 }

/-- C3 counterexample: under MLFQ with quanta 8,4,2, a level-0 task
with budget 2 calling thread_work 5 decrements to -3 and suspends, but
demotion, re-enqueue and the re-dispatch all refresh the budget to the
level-1 quantum, so the call returns 4, not the remaining budget -3
after the decrement. -/
theorem C3_work_return_cex :
    (getTh sC3cex.threads sC3cex.current).quantum_budget - max 1 5 = -3 ∧
    (thread_work_call sC3cex 5).2 = 4 ∧
    ((4 : Int) ≠ -3) := by decide

/-- C3 (amended): thread_work decrements the budget of the running task
by max(1, units) and returns the budget read after the call; under
RoundRobin and Priority this is the decremented (possibly non-positive)
value, also when the decrement crosses zero and the task is suspended
and later re-dispatched, and likewise under MLFQ when the decrement
stays positive; but under MLFQ when the decrement crosses zero the
demotion and re-enqueue refresh the budget, and the value returned is
quantum_by_level[min(prev+1, levels-1)], not the decremented value. -/
theorem C3_work_return (s : State) (units : Int)
    (hlen : s.current.toNat < s.threads.length)
    (hrun : (getTh s.threads s.current).state = ThreadState.RUNNING)
    (hlv : 1 ≤ s.sched.levels)
    (hlv0 : 0 ≤ (getTh s.threads s.current).mlfq_level)
    (hml : s.sched.mlfq.length = s.sched.levels.toNat)
    (hqb : s.sched.quantum_by_level.length = s.sched.levels.toNat) :
    (s.sched.policy ≠ SchedPolicy.MLFQ →
      (thread_work_call s units).2 =
        (getTh s.threads s.current).quantum_budget - max 1 units) ∧
    (s.sched.policy = SchedPolicy.MLFQ →
      0 < (getTh s.threads s.current).quantum_budget - max 1 units →
      (thread_work_call s units).2 =
        (getTh s.threads s.current).quantum_budget - max 1 units) ∧
    (s.sched.policy = SchedPolicy.MLFQ →
      (getTh s.threads s.current).quantum_budget - max 1 units ≤ 0 →
      (thread_work_call s units).2 =
        s.sched.quantum_by_level.getD
          (min ((getTh s.threads s.current).mlfq_level + 1)
            (s.sched.levels - 1)).toNat 0) := by
  have hcl : iclamp (min ((getTh s.threads s.current).mlfq_level + 1)
      (s.sched.levels - 1)) 0 (s.sched.levels - 1) =
      min ((getTh s.threads s.current).mlfq_level + 1) (s.sched.levels - 1) := by
    simp only [iclamp]
    omega
  have hinit := init_mlfq_noop s.sched hml hqb
  refine ⟨?_, ?_, ?_⟩
  · intro hnm
    by_cases hcross : (getTh s.threads s.current).quantum_budget -
        max 1 units ≤ 0
    · cases hpol : s.sched.policy with
      | MLFQ => exact absurd hpol hnm
      | RoundRobin =>
          simp [thread_work_call, thread_work_pre, hcross, hpol, hrun,
            Scheduler.demote_mlfq, Scheduler.enqueue, Scheduler.enqueue_rr,
            dispatch, switch_to_thread, getTh_setTh_self, length_setTh, hlen]
      | Priority =>
          simp [thread_work_call, thread_work_pre, hcross, hpol, hrun,
            Scheduler.demote_mlfq, Scheduler.enqueue, Scheduler.enqueue_prio,
            dispatch, switch_to_thread, getTh_setTh_self, length_setTh, hlen]
    · simp [thread_work_call, thread_work_pre, hcross,
        getTh_setTh_self, length_setTh, hlen]
  · intro _ hpos
    have hcross : ¬ ((getTh s.threads s.current).quantum_budget -
        max 1 units ≤ 0) := by omega
    simp [thread_work_call, thread_work_pre, hcross,
      getTh_setTh_self, length_setTh, hlen]
  · intro hpol hcross
    simp [thread_work_call, thread_work_pre, hcross, hpol, hrun,
      Scheduler.demote_mlfq, Scheduler.enqueue, Scheduler.enqueue_mlfq,
      hinit, hcl, dispatch, switch_to_thread, getTh_setTh_self,
      length_setTh, hlen]

def sC3wit : State :=
  { sched := { mlfq := [[], [], []] }
    threads := [{ tid := 0, state := ThreadState.RUNNING, quantum_budget := 3 }]
    current := 0 }

/-- C3 witness: under RoundRobin a task with budget 3 calling
thread_work 5 crosses zero, is suspended and re-dispatched, and the
call still returns -2, the decremented budget. -/
theorem C3_work_return_witness :
    sC3wit.sched.policy ≠ SchedPolicy.MLFQ ∧
    (thread_work_call sC3wit 5).2 = -2 := by
  refine ⟨by decide, ?_⟩
  have h := (C3_work_return sC3wit 5 (by decide) (by decide) (by decide)
    (by decide) (by decide) (by decide)).1 (by decide)
  rw [h]
  decide

/-! ### C6: the aging step -/

/-- Observer of the aging scan of maybe_age: the level that the loop
picks, scanning from the given index downward to 1 and stopping at the
first non-empty level FIFO. -/
def agePick (mlfq : List (List Int)) : Nat → Option Nat
  | 0 => none
  | Nat.succ l =>
      if (mlfq.getD (l + 1) []).isEmpty then agePick mlfq l
      else some (l + 1)

theorem agePick_none_iff (mlfq : List (List Int)) :
    ∀ n, agePick mlfq n = none ↔
      ∀ m, 1 ≤ m → m ≤ n → mlfq.getD m [] = []
  | 0 => by
      simp only [agePick, true_iff]
      omega
  | n + 1 => by
      by_cases h : (mlfq.getD (n + 1) []).isEmpty
      · have he : mlfq.getD (n + 1) [] = [] := by simpa using h
        rw [agePick, if_pos h, agePick_none_iff mlfq n]
        constructor
        · intro hall m h1 h2
          rcases Nat.lt_or_ge m (n + 1) with hm | hm
          · exact hall m h1 (by omega)
          · have : m = n + 1 := by omega
            subst this
            exact he
        · intro hall m h1 h2
          exact hall m h1 (by omega)
      · rw [agePick, if_neg h]
        simp only [reduceCtorEq, false_iff, not_forall]
        refine ⟨n + 1, by omega, le_refl _, ?_⟩
        simpa using h
  termination_by n => n

theorem agePick_bounds (mlfq : List (List Int)) :
    ∀ n L, agePick mlfq n = some L →
      1 ≤ L ∧ L ≤ n ∧ mlfq.getD L [] ≠ [] ∧
      ∀ m, L < m → m ≤ n → mlfq.getD m [] = []
  | 0, L, h => by simp [agePick] at h
  | n + 1, L, h => by
      by_cases hc : (mlfq.getD (n + 1) []).isEmpty
      · rw [agePick, if_pos hc] at h
        obtain ⟨h1, h2, h3, h4⟩ := agePick_bounds mlfq n L h
        refine ⟨h1, by omega, h3, ?_⟩
        intro m hm1 hm2
        rcases Nat.lt_or_ge m (n + 1) with hm | hm
        · exact h4 m hm1 (by omega)
        · have : m = n + 1 := by omega
          subst this
          simpa using hc
      · rw [agePick, if_neg hc] at h
        cases h
        refine ⟨by omega, le_refl _, by simpa using hc, ?_⟩
        intro m hm1 hm2
        omega

theorem ageLoop_eq_none (s : State) :
    ∀ n, agePick s.sched.mlfq n = none → ageLoop s n = s
  | 0, _ => rfl
  | n + 1, h => by
      by_cases hc : (s.sched.mlfq.getD (n + 1) []).isEmpty
      · have he : s.sched.mlfq.getD (n + 1) [] = [] := by simpa using hc
        have h' : agePick s.sched.mlfq n = none := by
          rw [agePick, if_pos hc] at h
          exact h
        rw [ageLoop, he]
        exact ageLoop_eq_none s n h'
      · rw [agePick, if_neg hc] at h
        exact absurd h (by simp)

theorem ageLoop_eq_some (s : State) :
    ∀ n L, agePick s.sched.mlfq n = some L →
      ∃ tid rest, s.sched.mlfq.getD L [] = tid :: rest ∧
        ageLoop s n =
          { s with
            sched := { s.sched with mlfq :=
              ((s.sched.mlfq.set L rest).set (L - 1)
                (((s.sched.mlfq.set L rest).getD (L - 1) []) ++ [tid])) }
            threads := setTh s.threads tid
              { getTh s.threads tid with
                  mlfq_level := ((L - 1 : Nat) : Int)
                  quantum_budget := s.sched.quantum_by_level.getD (L - 1) 0 }
            log := s.log ++ [LogEntry.mk "age" tid "promote"] }
  | 0, L, h => by simp [agePick] at h
  | n + 1, L, h => by
      by_cases hc : (s.sched.mlfq.getD (n + 1) []).isEmpty
      · have he : s.sched.mlfq.getD (n + 1) [] = [] := by simpa using hc
        have h' : agePick s.sched.mlfq n = some L := by
          rw [agePick, if_pos hc] at h
          exact h
        obtain ⟨tid, rest, hq, heq⟩ := ageLoop_eq_some s n L h'
        refine ⟨tid, rest, hq, ?_⟩
        rw [ageLoop, he]
        exact heq
      · rw [agePick, if_neg hc] at h
        cases hq : s.sched.mlfq.getD (n + 1) [] with
        | nil =>
            rw [hq] at hc
            simp at hc
        | cons tid rest =>
            cases h
            refine ⟨tid, rest, hq, ?_⟩
            rw [ageLoop, hq]
            simp

/-- C6: when an aging tick fires under MLFQ with aging enabled,
last_age_ms becomes now; the scan walks levels from the highest index
down to 1 and finds a level L exactly when some level above 0 is
non-empty, with every level above L empty; when no such level exists
nothing but last_age_ms changes; otherwise the head task of level L
alone is removed, its mlfq_level becomes L-1, its quantum_budget
becomes quantum_by_level[L-1], it is appended to the FIFO of level L-1,
an age event is logged, and every other thread record is untouched; in
particular exactly one task is promoted and never from level 0. -/
theorem C6_aging (s : State) (now : Int)
    (hpol : s.sched.policy = SchedPolicy.MLFQ)
    (hag : s.sched.enable_aging = true)
    (hdue : s.sched.aging_interval_ms ≤ now - s.sched.last_age_ms)
    (hv : ∀ l t, t ∈ s.sched.mlfq.getD l [] →
      0 ≤ t ∧ t.toNat < s.threads.length) :
    (maybe_age s now).sched.last_age_ms = now ∧
    (agePick s.sched.mlfq (s.sched.levels - 1).toNat = none ↔
      ∀ m, 1 ≤ m → m ≤ (s.sched.levels - 1).toNat →
        s.sched.mlfq.getD m [] = []) ∧
    (agePick s.sched.mlfq (s.sched.levels - 1).toNat = none →
      maybe_age s now =
        { s with sched := { s.sched with last_age_ms := now } }) ∧
    (∀ L, agePick s.sched.mlfq (s.sched.levels - 1).toNat = some L →
      1 ≤ L ∧ L ≤ (s.sched.levels - 1).toNat ∧
      (∀ m, L < m → m ≤ (s.sched.levels - 1).toNat →
        s.sched.mlfq.getD m [] = []) ∧
      ∃ tid rest, s.sched.mlfq.getD L [] = tid :: rest ∧
        (maybe_age s now).sched.mlfq =
          ((s.sched.mlfq.set L rest).set (L - 1)
            (((s.sched.mlfq.set L rest).getD (L - 1) []) ++ [tid])) ∧
        getTh (maybe_age s now).threads tid =
          { getTh s.threads tid with
              mlfq_level := ((L - 1 : Nat) : Int)
              quantum_budget := s.sched.quantum_by_level.getD (L - 1) 0 } ∧
        (∀ u : Int, u.toNat ≠ tid.toNat →
          getTh (maybe_age s now).threads u = getTh s.threads u) ∧
        (maybe_age s now).log = s.log ++ [LogEntry.mk "age" tid "promote"]) := by
  have htime : ¬ (now - s.sched.last_age_ms < s.sched.aging_interval_ms) := by
    omega
  have hma : maybe_age s now =
      ageLoop { s with sched := { s.sched with last_age_ms := now } }
        (s.sched.levels - 1).toNat := by
    simp [maybe_age, hpol, hag, htime]
  refine ⟨?_, agePick_none_iff _ _, ?_, ?_⟩
  · rw [hma]
    rcases hpick : agePick s.sched.mlfq (s.sched.levels - 1).toNat with _ | L
    · rw [ageLoop_eq_none
        { s with sched := { s.sched with last_age_ms := now } } _ hpick]
    · obtain ⟨tid, rest, _, heq⟩ := ageLoop_eq_some
        { s with sched := { s.sched with last_age_ms := now } }
        (s.sched.levels - 1).toNat L hpick
      rw [heq]
  · intro hpick
    rw [hma, ageLoop_eq_none
      { s with sched := { s.sched with last_age_ms := now } } _ hpick]
  · intro L hpick
    obtain ⟨h1, h2, _, h4⟩ := agePick_bounds _ _ _ hpick
    obtain ⟨tid, rest, hq, heq⟩ := ageLoop_eq_some
      { s with sched := { s.sched with last_age_ms := now } }
      (s.sched.levels - 1).toNat L hpick
    have htid : 0 ≤ tid ∧ tid.toNat < s.threads.length :=
      hv L tid (by rw [hq]; exact List.mem_cons_self _ _)
    refine ⟨h1, h2, h4, tid, rest, hq, ?_, ?_, ?_, ?_⟩
    · rw [hma, heq]
    · rw [hma, heq]
      exact getTh_setTh_self _ _ _ htid.2
    · intro u hu
      rw [hma, heq]
      exact getTh_setTh_ne _ _ _ _ (fun e => hu e.symm)
    · rw [hma, heq]

def sC6wit : State :=
  { sched := { policy := SchedPolicy.MLFQ, mlfq := [[], [], [0]]
               last_age_ms := 0, aging_interval_ms := 500 }
    threads := [{ tid := 0, mlfq_level := 2, state := ThreadState.READY }] }

/-- C6 witness: a tick at now = 600 with one task at level 2 promotes
exactly that task to level 1 with budget 4, appends it to the level-1
FIFO, sets last_age_ms to 600 and logs an age event. -/
theorem C6_aging_witness :
    sC6wit.sched.aging_interval_ms ≤ 600 - sC6wit.sched.last_age_ms ∧
    (maybe_age sC6wit 600).sched.last_age_ms = 600 ∧
    (maybe_age sC6wit 600).sched.mlfq = [[], [0], []] ∧
    (getTh (maybe_age sC6wit 600).threads 0).mlfq_level = 1 ∧
    (getTh (maybe_age sC6wit 600).threads 0).quantum_budget = 4 ∧
    (maybe_age sC6wit 600).log = [LogEntry.mk "age" 0 "promote"] := by
  have hv : ∀ l : Nat, ∀ t ∈ sC6wit.sched.mlfq.getD l [],
      0 ≤ t ∧ t.toNat < sC6wit.threads.length := by
    intro l t ht
    rcases l with _ | l
    · simp [sC6wit] at ht
    rcases l with _ | l
    · simp [sC6wit] at ht
    rcases l with _ | l
    · simp [sC6wit] at ht
      subst ht
      exact ⟨le_refl 0, by decide⟩
    · simp [sC6wit] at ht
  have h := C6_aging sC6wit 600 rfl rfl (by decide) hv
  have h3 := h.2.2.2 2 (by decide)
  obtain ⟨_, _, _, tid, rest, hq, hmlfq, hth, _, hlog⟩ := h3
  have htid : tid = 0 ∧ rest = [] := by
    have : ([0] : List Int) = tid :: rest := by simpa [sC6wit] using hq
    cases this
    exact ⟨rfl, rfl⟩
  obtain ⟨rfl, rfl⟩ := htid
  refine ⟨by decide, h.1, ?_, ?_, ?_, ?_⟩
  · rw [hmlfq]
    decide
  · rw [hth]
    decide
  · rw [hth]
    decide
  · rw [hlog]
    decide

end MiniOS
